import Mathlib

/-!
Shallow embedding of the `smallqueue` crate (BartMassey/smallqueue): a
fixed-capacity, heap-free FIFO queue implemented as a ring buffer over an
array of `C` slots with a `start` index and a `len` count.

The Rust source keeps the slots as `[MaybeUninit<T>; C]`; a slot is *occupied*
(holds a live value) or *vacant* (uninitialized memory).  The embedding models
each slot as an `Option T`: `some v` for an occupied slot holding `v`, `none`
for a vacant slot.  Moving a value out of a slot (Rust `ptr::read` followed by
the start/len bookkeeping that makes the slot logically vacant) is modelled by
writing `none` into the slot; writing into a vacant slot
(`as_mut_ptr().write(value)`) is modelled by writing `some value`.

Rust's `&mut self` methods are modelled as functions returning the method's
result paired with the successor state.  `usize` is modelled as `Nat` (the
index arithmetic `(start + len) % cap` never overflows for any queue that can
exist, since `len <= C` and the array of `C` slots bounds `C`).
-/

namespace SmallQueue

/-- `QueueError` from src/src/lib.rs: the single error kind, `Overflow`,
carrying no payload. -/
inductive QueueError : Type where
  | Overflow : QueueError
deriving DecidableEq, Repr

instance {E A : Type} [DecidableEq E] [DecidableEq A] : DecidableEq (Except E A) :=
  fun a b =>
    match a, b with
    | Except.ok x, Except.ok y =>
      if h : x = y then isTrue (by rw [h]) else isFalse (by intro he; cases he; exact h rfl)
    | Except.error e, Except.error f =>
      if h : e = f then isTrue (by rw [h]) else isFalse (by intro he; cases he; exact h rfl)
    | Except.ok _, Except.error _ => isFalse (by intro he; cases he)
    | Except.error _, Except.ok _ => isFalse (by intro he; cases he)

/-- `Queue<C, T>` from src/src/lib.rs: `values : [MaybeUninit<T>; C]` becomes a
length-`C` list of optional values, plus the `start` index and `len` count.
The capacity `C` is recoverable as `values.length`, exactly as the source
recovers it via `self.values.len()`. -/
structure Queue (T : Type) : Type where
  values : List (Option T)
  start : Nat
  len : Nat
deriving DecidableEq, Repr

namespace Queue

variable {T : Type}

/-- `Default::default` from src/src/lib.rs: every slot vacant
(`MaybeUninit::uninit()`), `start = 0`, `len = 0`. -/
def default (T : Type) (C : Nat) : Queue T :=
  { values := List.replicate C none, start := 0, len := 0 }

/-- `Queue::capacity` from src/src/lib.rs: `self.values.len()`. -/
def capacity (q : Queue T) : Nat :=
  q.values.length

/-- `Queue::insert` from src/src/lib.rs.  If `len + 1 > cap` it returns
`Err(Overflow)` without touching the state; otherwise it writes the value into
slot `(start + len) % cap` and increments `len`.  The pair returned is
(method result, successor state of `&mut self`). -/
def insert (q : Queue T) (value : T) : Except QueueError Unit × Queue T :=
  let cap := q.values.length
  if q.len + 1 > cap then
    (Except.error QueueError.Overflow, q)
  else
    (Except.ok (),
      { q with
        values := q.values.set ((q.start + q.len) % cap) (some value),
        len := q.len + 1 })

/-- `Queue::extract` from src/src/lib.rs.  If `len == 0` it returns `None`
without touching the state; otherwise it moves the value out of slot `start`
(the move-out making the slot vacant is `List.set q.start none`), advances
`start` to `(start + 1) % cap` and decrements `len`.  The value read is the
slot's content; on every state whose slot `start` is occupied this is `some`
of the stored value, matching the source's `Some(val)`. -/
def extract (q : Queue T) : Option T × Queue T :=
  if q.len = 0 then
    (none, q)
  else
    let cap := q.values.length
    (q.values.getD q.start none,
      { q with
        values := q.values.set q.start none,
        start := (q.start + 1) % cap,
        len := q.len - 1 })

/-- `Queue::is_empty` from src/src/lib.rs: `self.len == 0`. -/
def is_empty (q : Queue T) : Bool :=
  q.len == 0

/-- The slot indices visited by `Drop::drop` from src/src/lib.rs, in visit
order: `(start + i) % cap` for `i in 0..len`. -/
def dropOrder (q : Queue T) : List Nat :=
  (List.range q.len).map (fun i => (q.start + i) % q.values.length)

/-- The slot contents released by `Drop::drop` (`ptr::drop_in_place`), in
release order. -/
def dropReleases (q : Queue T) : List (Option T) :=
  q.dropOrder.map (fun j => q.values.getD j none)

/-- The queue's contents read front-to-back along the occupancy contour:
slot `(start + i) % cap` for `i in [0, len)`. -/
def frontToBack (q : Queue T) : List (Option T) :=
  (List.range q.len).map (fun i => q.values.getD ((q.start + i) % q.values.length) none)

/-- The occupancy invariant from the spec, together with validity of the
`start` index: `len ≤ C`; `start < C` when `C > 0` and `start = 0` when
`C = 0`; and a slot is occupied exactly when it lies on the contour
`(start + i) % C`, `i < len`. -/
def Wf (q : Queue T) : Prop :=
  q.len ≤ q.values.length ∧
  (0 < q.values.length → q.start < q.values.length) ∧
  (q.values.length = 0 → q.start = 0) ∧
  ∀ j, j < q.values.length →
    ((q.values.getD j none).isSome = true ↔ ∃ i, i < q.len ∧ j = (q.start + i) % q.values.length)

instance (q : Queue T) : Decidable (Wf q) := by
  unfold Wf
  infer_instance

/-- Abstraction relation: the concrete ring buffer `q` represents the abstract
FIFO list `l` (front first). -/
def Models (q : Queue T) (l : List T) : Prop :=
  q.Wf ∧ q.frontToBack = l.map some

end Queue

/-- One client operation on the queue: an insert of a value or an extract. -/
inductive Op (T : Type) : Type where
  | ins : T → Op T
  | ext : Op T

/-- Run a list of operations against the concrete queue, collecting the result
of every `extract` in order. -/
def runOps {T : Type} : Queue T → List (Op T) → List (Option T) × Queue T
  | q, [] => ([], q)
  | q, Op.ins v :: ops => runOps (q.insert v).snd ops
  | q, Op.ext :: ops =>
    (q.extract.fst :: (runOps q.extract.snd ops).fst, (runOps q.extract.snd ops).snd)

/-- Abstract bounded-FIFO insert: append when below capacity, drop the value
otherwise (the source's lossy overflow). -/
def absInsert {T : Type} (C : Nat) (l : List T) (v : T) : List T :=
  if l.length < C then l ++ [v] else l

/-- Run a list of operations against the abstract bounded FIFO (a plain list,
front first), collecting the result of every extract in order. -/
def absRun {T : Type} (C : Nat) : List T → List (Op T) → List (Option T) × List T
  | l, [] => ([], l)
  | l, Op.ins v :: ops => absRun C (absInsert C l v) ops
  | l, Op.ext :: ops =>
    (l.head? :: (absRun C l.tail ops).fst, (absRun C l.tail ops).snd)

namespace StackQueue

variable {T : Type}

/-- `Queue::insert` from src/stackqueue.rs.  Identical to the lib.rs copy
except that the write is `*ptr = val` instead of `ptr.write(val)`: the
assignment additionally drops the slot's previous content, which on pure data
(and on any invariant-respecting state, where the target slot is vacant) has
no observable effect, so both render as the same slot update. -/
def insert (q : Queue T) (val : T) : Except QueueError Unit × Queue T :=
  let cap := q.values.length
  if q.len + 1 > cap then
    (Except.error QueueError.Overflow, q)
  else
    (Except.ok (),
      { q with
        values := q.values.set ((q.start + q.len) % cap) (some val),
        len := q.len + 1 })

/-- `Queue::extract` from src/stackqueue.rs (textually identical to the
lib.rs copy). -/
def extract (q : Queue T) : Option T × Queue T :=
  if q.len = 0 then
    (none, q)
  else
    let cap := q.values.length
    (q.values.getD q.start none,
      { q with
        values := q.values.set q.start none,
        start := (q.start + 1) % cap,
        len := q.len - 1 })

/-- `Queue::capacity` from src/stackqueue.rs. -/
def capacity (q : Queue T) : Nat :=
  q.values.length

/-- `Queue::len` from src/stackqueue.rs. -/
def len (q : Queue T) : Nat :=
  q.len

/-- `Queue::is_empty` from src/stackqueue.rs. -/
def is_empty (q : Queue T) : Bool :=
  q.len == 0

end StackQueue

namespace Queue

variable {T : Type}

lemma getD_set_self (l : List (Option T)) (i : Nat) (a : Option T) (h : i < l.length) :
    (l.set i a).getD i none = a := by
  simp [List.getD_eq_getElem?_getD, List.getElem?_set, h]

lemma getD_set_ne (l : List (Option T)) {i j : Nat} (a : Option T) (h : i ≠ j) :
    (l.set i a).getD j none = l.getD j none := by
  simp [List.getD_eq_getElem?_getD, List.getElem?_set, h]

lemma getD_replicate (C j : Nat) :
    (List.replicate C (none : Option T)).getD j none = none := by
  rcases Nat.lt_or_ge j C with h | h
  · simp [List.getD_eq_getElem?_getD, List.getElem?_replicate, h]
  · rw [List.getD_eq_getElem?_getD, List.getElem?_eq_none]
    · rfl
    · simpa using h

/-- Two contour offsets below the capacity that land on the same slot are
equal: `i ↦ (s + i) % C` is injective on `[0, C)`. -/
lemma contour_inj {C s i j : Nat} (hi : i < C) (hj : j < C)
    (h : (s + i) % C = (s + j) % C) : i = j :=
  Nat.ModEq.eq_of_lt_of_lt (Nat.ModEq.add_left_cancel' s h) hi hj

lemma insert_full {q : Queue T} (v : T) (h : q.values.length ≤ q.len) :
    q.insert v = (Except.error QueueError.Overflow, q) := by
  simp only [insert, gt_iff_lt]
  rw [if_pos (by omega)]

lemma insert_succ {q : Queue T} (v : T) (h : q.len < q.values.length) :
    q.insert v = (Except.ok (),
      { q with
        values := q.values.set ((q.start + q.len) % q.values.length) (some v),
        len := q.len + 1 }) := by
  simp only [insert, gt_iff_lt]
  rw [if_neg (by omega)]

lemma extract_zero {q : Queue T} (h : q.len = 0) :
    q.extract = (none, q) := by
  simp only [extract]
  rw [if_pos h]

lemma extract_pos {q : Queue T} (h : 0 < q.len) :
    q.extract = (q.values.getD q.start none,
      { q with
        values := q.values.set q.start none,
        start := (q.start + 1) % q.values.length,
        len := q.len - 1 }) := by
  simp only [extract]
  rw [if_neg (by omega)]

lemma insert_snd_full {q : Queue T} (v : T) (h : q.values.length ≤ q.len) :
    (q.insert v).snd = q := by
  rw [insert_full v h]

lemma insert_snd_succ {q : Queue T} (v : T) (h : q.len < q.values.length) :
    (q.insert v).snd =
      { q with
        values := q.values.set ((q.start + q.len) % q.values.length) (some v),
        len := q.len + 1 } := by
  rw [insert_succ v h]

lemma extract_snd_pos {q : Queue T} (h : 0 < q.len) :
    q.extract.snd =
      { q with
        values := q.values.set q.start none,
        start := (q.start + 1) % q.values.length,
        len := q.len - 1 } := by
  rw [extract_pos h]

lemma wf_default (C : Nat) : (Queue.default T C).Wf := by
  refine ⟨by simp [default], by simp [default], by simp [default], ?_⟩
  intro j hj
  simp [default, getD_replicate]

lemma wf_insert {q : Queue T} (h : q.Wf) (v : T) : (q.insert v).snd.Wf := by
  rcases Nat.lt_or_ge q.len q.values.length with hlt | hge
  · rw [insert_snd_succ v hlt]
    obtain ⟨hlen, hs1, hs0, hcont⟩ := h
    have hC : 0 < q.values.length := Nat.lt_of_le_of_lt (Nat.zero_le _) hlt
    have hk : (q.start + q.len) % q.values.length < q.values.length := Nat.mod_lt _ hC
    unfold Wf
    dsimp only
    simp only [List.length_set]
    refine ⟨by omega, fun h0 => hs1 h0, fun h0 => hs0 h0, ?_⟩
    · intro j hj
      by_cases hjk : j = (q.start + q.len) % q.values.length
      · subst hjk
        rw [getD_set_self _ _ _ hk]
        simp only [Option.isSome_some, true_iff]
        exact ⟨q.len, by omega, rfl⟩
      · rw [getD_set_ne _ (some v) (Ne.symm hjk)]
        rw [hcont j hj]
        constructor
        · rintro ⟨i, hi, rfl⟩
          exact ⟨i, by omega, rfl⟩
        · rintro ⟨i, hi, rfl⟩
          rcases Nat.lt_or_ge i q.len with hil | hil
          · exact ⟨i, hil, rfl⟩
          · have hieq : i = q.len := by omega
            subst hieq
            exact absurd rfl hjk
  · rw [insert_snd_full v hge]
    exact ⟨h.1, h.2.1, h.2.2.1, h.2.2.2⟩

lemma wf_extract {q : Queue T} (h : q.Wf) : q.extract.snd.Wf := by
  rcases Nat.eq_zero_or_pos q.len with h0 | hpos
  · rw [extract_zero h0]
    exact h
  · rw [extract_snd_pos hpos]
    obtain ⟨hlen, hs1, hs0, hcont⟩ := h
    have hC : 0 < q.values.length := by omega
    have hst : q.start < q.values.length := hs1 hC
    have hidx : ∀ i : Nat, ((q.start + 1) % q.values.length + i) % q.values.length
        = (q.start + (i + 1)) % q.values.length := by
      intro i
      rw [Nat.mod_add_mod]
      congr 1
      omega
    unfold Wf
    dsimp only
    simp only [List.length_set]
    refine ⟨by omega, fun h0' => Nat.mod_lt _ h0', fun h0' => by omega, ?_⟩
    · intro j hj
      by_cases hjs : j = q.start
      · subst hjs
        rw [getD_set_self _ _ _ hst]
        simp only [Option.isSome_none, Bool.false_eq_true, false_iff]
        rintro ⟨i, hi, heq⟩
        rw [hidx i] at heq
        have heq' : (q.start + 0) % q.values.length
            = (q.start + (i + 1)) % q.values.length := by
          rw [Nat.add_zero, Nat.mod_eq_of_lt hst]
          exact heq
        have := contour_inj hC (by omega) heq'
        omega
      · rw [getD_set_ne _ none (Ne.symm hjs)]
        rw [hcont j hj]
        constructor
        · rintro ⟨i, hi, rfl⟩
          have hi0 : i ≠ 0 := by
            intro h'
            subst h'
            exact hjs (by simp [Nat.mod_eq_of_lt hst])
          refine ⟨i - 1, by omega, ?_⟩
          rw [hidx]
          congr 1
          omega
        · rintro ⟨i, hi, rfl⟩
          rw [hidx]
          exact ⟨i + 1, by omega, rfl⟩

lemma insert_snd_start {q : Queue T} (v : T) (h : q.len < q.values.length) :
    (q.insert v).snd.start = q.start := by
  rw [insert_snd_succ v h]

lemma insert_snd_len {q : Queue T} (v : T) (h : q.len < q.values.length) :
    (q.insert v).snd.len = q.len + 1 := by
  rw [insert_snd_succ v h]

lemma insert_snd_values {q : Queue T} (v : T) (h : q.len < q.values.length) :
    (q.insert v).snd.values
      = q.values.set ((q.start + q.len) % q.values.length) (some v) := by
  rw [insert_snd_succ v h]

lemma extract_fst_pos {q : Queue T} (h : 0 < q.len) :
    q.extract.fst = q.values.getD q.start none := by
  rw [extract_pos h]

lemma extract_snd_start {q : Queue T} (h : 0 < q.len) :
    q.extract.snd.start = (q.start + 1) % q.values.length := by
  rw [extract_snd_pos h]

lemma extract_snd_len {q : Queue T} (h : 0 < q.len) :
    q.extract.snd.len = q.len - 1 := by
  rw [extract_snd_pos h]

lemma extract_snd_values {q : Queue T} (h : 0 < q.len) :
    q.extract.snd.values = q.values.set q.start none := by
  rw [extract_snd_pos h]

lemma capacity_insert (q : Queue T) (v : T) :
    (q.insert v).snd.capacity = q.capacity := by
  rcases Nat.lt_or_ge q.len q.values.length with hlt | hge
  · rw [insert_snd_succ v hlt]
    simp [capacity]
  · rw [insert_snd_full v hge]

lemma capacity_extract (q : Queue T) :
    q.extract.snd.capacity = q.capacity := by
  rcases Nat.eq_zero_or_pos q.len with h0 | hpos
  · rw [extract_zero h0]
  · rw [extract_snd_pos hpos]
    simp [capacity]

lemma capacity_eq (q : Queue T) : q.capacity = q.values.length :=
  rfl

lemma frontToBack_length (q : Queue T) : q.frontToBack.length = q.len := by
  simp [frontToBack]

lemma models_len {q : Queue T} {l : List T} (h : q.Models l) : q.len = l.length := by
  have h2 := congrArg List.length h.2
  simpa [frontToBack] using h2

lemma models_entry {q : Queue T} {l : List T} (h : q.Models l) (i : Nat)
    (hi : i < l.length) :
    q.values.getD ((q.start + i) % q.values.length) none = some (l.get ⟨i, hi⟩) := by
  have hlen := models_len h
  have hfl : i < q.frontToBack.length := by
    rw [frontToBack_length, hlen]
    exact hi
  have h3 := List.getElem_of_eq h.2 hfl
  simpa [frontToBack] using h3

lemma models_of_entries {q : Queue T} {l : List T} (hwf : q.Wf) (hlen : q.len = l.length)
    (he : ∀ i, (hi : i < l.length) →
      q.values.getD ((q.start + i) % q.values.length) none = some (l.get ⟨i, hi⟩)) :
    q.Models l := by
  refine ⟨hwf, ?_⟩
  apply List.ext_getElem
  · simp [frontToBack, hlen]
  · intro i h1 h2
    simp only [frontToBack, List.getElem_map, List.getElem_range]
    have h2' : i < l.length := by simpa using h2
    simpa using he i h2'

lemma default_models (C : Nat) : (Queue.default T C).Models [] := by
  refine ⟨wf_default C, ?_⟩
  simp [frontToBack, default]

lemma insert_models {q : Queue T} {l : List T} (h : q.Models l) (v : T)
    (hlt : l.length < q.capacity) :
    (q.insert v).fst = Except.ok () ∧ (q.insert v).snd.Models (l ++ [v]) := by
  have hlen := models_len h
  have hwf := h.1
  have hlt' : q.len < q.values.length := by
    rw [hlen]
    exact hlt
  have hC : 0 < q.values.length := by omega
  have hk : (q.start + q.len) % q.values.length < q.values.length := Nat.mod_lt _ hC
  refine ⟨by rw [insert_succ v hlt'], ?_⟩
  refine models_of_entries (wf_insert hwf v) ?_ ?_
  · rw [insert_snd_len v hlt', hlen]
    simp
  · intro i hi
    rw [insert_snd_start v hlt', insert_snd_values v hlt']
    simp only [List.length_set]
    simp only [List.length_append, List.length_singleton] at hi
    rcases Nat.lt_or_ge i l.length with hil | hil
    · have hne : (q.start + q.len) % q.values.length ≠ (q.start + i) % q.values.length := by
        intro he
        have := contour_inj (by omega) (by omega) he
        omega
      rw [getD_set_ne _ (some v) hne]
      rw [models_entry h i hil]
      congr 1
      simp [List.get_eq_getElem, List.getElem_append_left, hil]
    · have hi' : i = l.length := by omega
      subst hi'
      have hkk : (q.start + l.length) % q.values.length
          = (q.start + q.len) % q.values.length := by
        rw [hlen]
      rw [hkk, getD_set_self _ _ _ hk]
      congr 1
      simp [List.get_eq_getElem]

lemma extract_models {q : Queue T} {a : T} {l : List T} (h : q.Models (a :: l)) :
    q.extract.fst = some a ∧ q.extract.snd.Models l := by
  have hlen := models_len h
  have hwf := h.1
  have hpos : 0 < q.len := by
    rw [hlen]
    simp
  have hle := hwf.1
  have hlen' : q.len = l.length + 1 := by simpa using hlen
  have hC : 0 < q.values.length := by omega
  have hst : q.start < q.values.length := hwf.2.1 hC
  have hhead : q.values.getD q.start none = some a := by
    have h0 := models_entry h 0 (by simp)
    simpa [Nat.mod_eq_of_lt hst] using h0
  refine ⟨by rw [extract_fst_pos hpos, hhead], ?_⟩
  refine models_of_entries (wf_extract hwf) ?_ ?_
  · rw [extract_snd_len hpos, hlen]
    simp
  · intro i hi
    rw [extract_snd_start hpos, extract_snd_values hpos]
    simp only [List.length_set]
    have hidx : ((q.start + 1) % q.values.length + i) % q.values.length
        = (q.start + (i + 1)) % q.values.length := by
      rw [Nat.mod_add_mod]
      congr 1
      omega
    rw [hidx]
    have hne : q.start ≠ (q.start + (i + 1)) % q.values.length := by
      intro he
      have he' : (q.start + 0) % q.values.length
          = (q.start + (i + 1)) % q.values.length := by
        rw [Nat.add_zero, Nat.mod_eq_of_lt hst]
        exact he
      have := contour_inj hC (by omega) he'
      omega
    rw [getD_set_ne _ none hne]
    have h1 := models_entry h (i + 1) (by simpa using Nat.succ_lt_succ hi)
    rw [h1]
    rfl

end Queue

/-- The concrete queue simulates the abstract bounded FIFO: running any
operation sequence from related states yields identical extract outputs and
related final states. -/
lemma runOps_sim {T : Type} (ops : List (Op T)) :
    ∀ (q : Queue T) (l : List T), q.Models l →
      (runOps q ops).fst = (absRun q.capacity l ops).fst ∧
      (runOps q ops).snd.Models (absRun q.capacity l ops).snd := by
  induction ops with
  | nil =>
    intro q l h
    exact ⟨rfl, h⟩
  | cons op ops ih =>
    intro q l h
    cases op with
    | ins v =>
      rcases Nat.lt_or_ge l.length q.capacity with hlt | hge
      · obtain ⟨hok, hm⟩ := Queue.insert_models h v hlt
        have ihh := ih (q.insert v).snd (l ++ [v]) hm
        rw [Queue.capacity_insert] at ihh
        simp only [runOps, absRun, absInsert, if_pos hlt]
        exact ihh
      · have hfull : q.insert v = (Except.error QueueError.Overflow, q) :=
          Queue.insert_full v (by simpa [Queue.capacity, ← Queue.models_len h] using hge)
        have ihh := ih q l h
        simp only [runOps, absRun, absInsert, if_neg (Nat.not_lt.mpr hge), hfull]
        exact ihh
    | ext =>
      cases l with
      | nil =>
        have hz : q.extract = (none, q) :=
          Queue.extract_zero (by simpa using Queue.models_len h)
        have ihh := ih q [] h
        simp only [runOps, absRun, hz, List.tail_nil, List.head?_nil]
        exact ⟨by rw [ihh.1], ihh.2⟩
      | cons a l =>
        obtain ⟨hfst, hm⟩ := Queue.extract_models h
        have ihh := ih q.extract.snd l hm
        rw [Queue.capacity_extract] at ihh
        simp only [runOps, absRun, List.tail_cons, List.head?_cons]
        exact ⟨by rw [hfst, ihh.1], ihh.2⟩

lemma runOps_capacity {T : Type} (ops : List (Op T)) :
    ∀ q : Queue T, (runOps q ops).snd.capacity = q.capacity := by
  induction ops with
  | nil =>
    intro q
    rfl
  | cons op ops ih =>
    intro q
    cases op with
    | ins v =>
      simp only [runOps]
      rw [ih, Queue.capacity_insert]
    | ext =>
      simp only [runOps]
      rw [ih, Queue.capacity_extract]

lemma absRun_inserts {T : Type} :
    ∀ (vs l : List T) (ops : List (Op T)), l.length + vs.length ≤ C →
      absRun C l (vs.map Op.ins ++ ops) = absRun C (l ++ vs) ops := by
  intro vs
  induction vs with
  | nil =>
    intro l ops h
    simp
  | cons v vs ih =>
    intro l ops h
    simp only [List.map_cons, List.cons_append, absRun, absInsert, List.append_eq]
    rw [if_pos (by simp at h ⊢; omega)]
    rw [ih (l ++ [v]) ops (by simp at h ⊢; omega)]
    congr 1
    simp

lemma absRun_extracts {T : Type} :
    ∀ (l : List T) (C : Nat), absRun C l (List.replicate l.length Op.ext) = (l.map some, []) := by
  intro l
  induction l with
  | nil =>
    intro C
    simp [absRun]
  | cons a l ih =>
    intro C
    simp only [List.length_cons, List.replicate_succ, absRun, List.head?_cons, List.tail_cons,
      List.map_cons]
    rw [ih C]

lemma exists_of_all_isSome {T : Type} :
    ∀ m : List (Option T), (∀ o ∈ m, o.isSome = true) →
      ∃ vs : List T, m = vs.map some ∧ vs.length = m.length := by
  intro m
  induction m with
  | nil =>
    intro _
    exact ⟨[], rfl, rfl⟩
  | cons o m ih =>
    intro h
    obtain ⟨v, hv⟩ := Option.isSome_iff_exists.mp (h o (by simp))
    obtain ⟨vs, hm, hl⟩ := ih (fun o' ho' => h o' (by simp [ho']))
    exact ⟨v :: vs, by simp [hv, hm], by simp [hl]⟩

/-- C1: FIFO order and wraparound correctness.  Inserting `v1..vk` (`k ≤ C`)
into a fresh capacity-`C` queue and then extracting `k` times yields
`some v1, ..., some vk` in insertion order; and over an arbitrary interleaved
insert/extract sequence — including ones long enough that `start` wraps past
`C-1` repeatedly — the extract results coincide with those of an abstract
FIFO list, and the occupancy invariant holds in the final state. -/
theorem claim_C1_fifo_order {T : Type} (C : Nat) (vs : List T) (ops : List (Op T))
    (hk : vs.length ≤ C) :
    (runOps (Queue.default T C) (vs.map Op.ins ++ List.replicate vs.length Op.ext)).fst
      = vs.map some ∧
    (runOps (Queue.default T C) ops).fst = (absRun C [] ops).fst ∧
    (runOps (Queue.default T C) ops).snd.Wf := by
  have hsim1 := runOps_sim (vs.map Op.ins ++ List.replicate vs.length Op.ext)
      (Queue.default T C) [] (Queue.default_models C)
  have hsim2 := runOps_sim ops (Queue.default T C) [] (Queue.default_models C)
  have hcap : (Queue.default T C).capacity = C := by
    simp [Queue.capacity, Queue.default]
  rw [hcap] at hsim1 hsim2
  refine ⟨?_, hsim2.1, hsim2.2.1⟩
  rw [hsim1.1, absRun_inserts vs [] _ (by simpa using hk), List.nil_append,
    absRun_extracts vs C]

/-- C1 witness: concrete instance at capacity 3. -/
theorem claim_C1_fifo_order_witness :
    ([10, 20, 30] : List Nat).length ≤ 3 ∧
    ((runOps (Queue.default Nat 3)
        (([10, 20, 30] : List Nat).map Op.ins
          ++ List.replicate ([10, 20, 30] : List Nat).length Op.ext)).fst
      = ([10, 20, 30] : List Nat).map some ∧
    (runOps (Queue.default Nat 3) [Op.ins 1, Op.ext, Op.ext]).fst
      = (absRun 3 [] [Op.ins 1, Op.ext, Op.ext]).fst ∧
    (runOps (Queue.default Nat 3) [Op.ins 1, Op.ext, Op.ext]).snd.Wf) :=
  ⟨by decide, claim_C1_fifo_order 3 [10, 20, 30] [Op.ins 1, Op.ext, Op.ext] (by decide)⟩

/-- C2: the occupancy invariant — `0 ≤ len ≤ C`, a valid `start`, and the
occupied slots being exactly the `len` slots `(start + i) % C` for
`i ∈ [0, len)` with all others vacant — holds for the freshly constructed
queue and is preserved by `insert` (whether it succeeds or fails with
`Overflow`) and by `extract` (whether it returns a value or `none`); the
observers `capacity`, `len` and `is_empty` are pure functions of the state
and mutate nothing. -/
theorem claim_C2_occupancy_invariant {T : Type} (C : Nat) (q : Queue T) (v : T)
    (h : q.Wf) :
    (Queue.default T C).Wf ∧ (q.insert v).snd.Wf ∧ q.extract.snd.Wf :=
  ⟨Queue.wf_default C, Queue.wf_insert h v, Queue.wf_extract h⟩

/-- C2 witness: concrete instance at a capacity-2 queue holding one value. -/
theorem claim_C2_occupancy_invariant_witness :
    (Queue.mk [some 5, none] 0 1 : Queue Nat).Wf ∧
    ((Queue.default Nat 4).Wf ∧
      ((Queue.mk [some 5, none] 0 1 : Queue Nat).insert 7).snd.Wf ∧
      (Queue.mk [some 5, none] 0 1 : Queue Nat).extract.snd.Wf) :=
  ⟨by decide, claim_C2_occupancy_invariant 4 (Queue.mk [some 5, none] 0 1) 7 (by decide)⟩

/-- C3: `insert` fails with `Overflow` exactly when `len = capacity`; on that
failure the queue state is completely unchanged; and the error type's only
inhabitant is the payload-free `Overflow` (in particular the rejected value is
not handed back to the caller). -/
theorem claim_C3_overflow_iff_full {T : Type} (q : Queue T) (v : T) (h : q.Wf) :
    ((q.insert v).fst = Except.error QueueError.Overflow ↔ q.len = q.capacity) ∧
    ((q.insert v).fst = Except.error QueueError.Overflow → (q.insert v).snd = q) ∧
    (∀ e : QueueError, e = QueueError.Overflow) := by
  have hle := h.1
  rw [Queue.capacity_eq]
  rcases Nat.lt_or_ge q.len q.values.length with hlt | hge
  · rw [Queue.insert_succ v hlt]
    exact ⟨⟨fun he => absurd he (by simp), fun he => absurd he (by omega)⟩,
      fun he => absurd he (by simp), fun e => by cases e; rfl⟩
  · rw [Queue.insert_full v hge]
    exact ⟨⟨fun _ => by omega, fun _ => rfl⟩, fun _ => rfl, fun e => by cases e; rfl⟩

/-- C3 witness: concrete instance at a full capacity-1 queue. -/
theorem claim_C3_overflow_iff_full_witness :
    (Queue.mk [some 1] 0 1 : Queue Nat).Wf ∧
    ((((Queue.mk [some 1] 0 1 : Queue Nat).insert 9).fst
        = Except.error QueueError.Overflow
      ↔ (Queue.mk [some 1] 0 1 : Queue Nat).len
        = (Queue.mk [some 1] 0 1 : Queue Nat).capacity) ∧
    (((Queue.mk [some 1] 0 1 : Queue Nat).insert 9).fst
        = Except.error QueueError.Overflow
      → ((Queue.mk [some 1] 0 1 : Queue Nat).insert 9).snd
        = (Queue.mk [some 1] 0 1 : Queue Nat)) ∧
    (∀ e : QueueError, e = QueueError.Overflow)) :=
  ⟨by decide, claim_C3_overflow_iff_full (Queue.mk [some 1] 0 1) 9 (by decide)⟩

/-- C4: teardown (`Drop::drop`) visits exactly the slots
`(start + i) % C`, `i = 0, 1, ..., len-1`, in that order (`dropOrder` is by
definition that index sequence): no slot is visited twice, every visited slot
is occupied (no vacant slot is touched), every occupied slot is visited (no
leak), and the released contents are the queue's `len` values in front-to-back
order, each released exactly once. -/
theorem claim_C4_teardown {T : Type} (q : Queue T) (h : q.Wf) :
    q.dropOrder.Nodup ∧
    (∀ j ∈ q.dropOrder, (q.values.getD j none).isSome = true) ∧
    (∀ j, j < q.capacity → (q.values.getD j none).isSome = true → j ∈ q.dropOrder) ∧
    q.dropReleases = q.frontToBack ∧
    (∃ vs : List T, q.dropReleases = vs.map some ∧ vs.length = q.len) := by
  obtain ⟨hlen, hs1, hs0, hcont⟩ := h
  have hmem : ∀ j ∈ q.dropOrder, (q.values.getD j none).isSome = true := by
    intro j hj
    simp only [Queue.dropOrder, List.mem_map, List.mem_range] at hj
    obtain ⟨i, hi, rfl⟩ := hj
    have hC : 0 < q.values.length := by omega
    have hk : (q.start + i) % q.values.length < q.values.length := Nat.mod_lt _ hC
    exact (hcont _ hk).mpr ⟨i, hi, rfl⟩
  have hrel : q.dropReleases = q.frontToBack := by
    simp [Queue.dropReleases, Queue.dropOrder, Queue.frontToBack, List.map_map,
      Function.comp]
  refine ⟨?_, hmem, ?_, hrel, ?_⟩
  · rcases Nat.eq_zero_or_pos q.len with h0 | hp
    · simp [Queue.dropOrder, h0]
    · have hC : 0 < q.values.length := by omega
      refine List.Nodup.map_on ?_ (List.nodup_range _)
      intro x hx y hy hxy
      simp only [List.mem_range] at hx hy
      exact Queue.contour_inj (by omega) (by omega) hxy
  · intro j hj hsome
    rw [Queue.capacity_eq] at hj
    obtain ⟨i, hi, rfl⟩ := (hcont j hj).mp hsome
    simp only [Queue.dropOrder, List.mem_map, List.mem_range]
    exact ⟨i, hi, rfl⟩
  · have hall : ∀ o ∈ q.dropReleases, o.isSome = true := by
      intro o ho
      simp only [Queue.dropReleases, List.mem_map] at ho
      obtain ⟨j, hjmem, rfl⟩ := ho
      exact hmem j hjmem
    obtain ⟨vs, h1, h2⟩ := exists_of_all_isSome q.dropReleases hall
    refine ⟨vs, h1, ?_⟩
    rw [h2]
    simp [Queue.dropReleases, Queue.dropOrder]

/-- C4 witness: concrete instance at a wrapped capacity-3 queue holding two
values. -/
theorem claim_C4_teardown_witness :
    (Queue.mk [some 8, none, some 7] 2 2 : Queue Nat).Wf ∧
    ((Queue.mk [some 8, none, some 7] 2 2 : Queue Nat).dropOrder.Nodup ∧
    (∀ j ∈ (Queue.mk [some 8, none, some 7] 2 2 : Queue Nat).dropOrder,
      ((Queue.mk [some 8, none, some 7] 2 2 : Queue Nat).values.getD j none).isSome
        = true) ∧
    (∀ j, j < (Queue.mk [some 8, none, some 7] 2 2 : Queue Nat).capacity →
      ((Queue.mk [some 8, none, some 7] 2 2 : Queue Nat).values.getD j none).isSome
        = true →
      j ∈ (Queue.mk [some 8, none, some 7] 2 2 : Queue Nat).dropOrder) ∧
    (Queue.mk [some 8, none, some 7] 2 2 : Queue Nat).dropReleases
      = (Queue.mk [some 8, none, some 7] 2 2 : Queue Nat).frontToBack ∧
    (∃ vs : List Nat,
      (Queue.mk [some 8, none, some 7] 2 2 : Queue Nat).dropReleases = vs.map some ∧
      vs.length = (Queue.mk [some 8, none, some 7] 2 2 : Queue Nat).len)) :=
  ⟨by decide, claim_C4_teardown (Queue.mk [some 8, none, some 7] 2 2) (by decide)⟩

/-- C6: on a non-full well-formed queue, `insert v` succeeds, writes `v` into
slot `(start + len) % C` — which was vacant beforehand — increments `len` by
exactly 1, and leaves `start`, the capacity and every other slot unchanged. -/
theorem claim_C6_insert_success {T : Type} (q : Queue T) (v : T) (h : q.Wf)
    (hlt : q.len < q.capacity) :
    (q.insert v).fst = Except.ok () ∧
    (q.insert v).snd.len = q.len + 1 ∧
    (q.insert v).snd.start = q.start ∧
    (q.insert v).snd.capacity = q.capacity ∧
    q.values.getD ((q.start + q.len) % q.capacity) none = none ∧
    (q.insert v).snd.values.getD ((q.start + q.len) % q.capacity) none = some v ∧
    (∀ j, j < q.capacity → j ≠ (q.start + q.len) % q.capacity →
      (q.insert v).snd.values.getD j none = q.values.getD j none) := by
  obtain ⟨hlen, hs1, hs0, hcont⟩ := h
  rw [Queue.capacity_eq q] at hlt ⊢
  have hC : 0 < q.values.length := by omega
  have hk : (q.start + q.len) % q.values.length < q.values.length := Nat.mod_lt _ hC
  have hvac : q.values.getD ((q.start + q.len) % q.values.length) none = none := by
    cases hx : q.values.getD ((q.start + q.len) % q.values.length) none with
    | none => rfl
    | some w =>
      obtain ⟨i, hi, heq⟩ := (hcont _ hk).mp (by rw [hx]; rfl)
      have := Queue.contour_inj hlt (by omega) heq
      omega
  refine ⟨by rw [Queue.insert_succ v hlt], Queue.insert_snd_len v hlt,
    Queue.insert_snd_start v hlt, by rw [Queue.capacity_insert, Queue.capacity_eq q],
    hvac, ?_, ?_⟩
  · rw [Queue.insert_snd_values v hlt]
    exact Queue.getD_set_self _ _ _ hk
  · intro j hj hne
    rw [Queue.insert_snd_values v hlt]
    exact Queue.getD_set_ne _ (some v) (Ne.symm hne)

/-- C6 witness: concrete instance at a capacity-2 queue holding one value. -/
theorem claim_C6_insert_success_witness :
    (Queue.mk [some 5, none] 0 1 : Queue Nat).Wf ∧
    (Queue.mk [some 5, none] 0 1 : Queue Nat).len
      < (Queue.mk [some 5, none] 0 1 : Queue Nat).capacity ∧
    (((Queue.mk [some 5, none] 0 1 : Queue Nat).insert 7).fst = Except.ok () ∧
    ((Queue.mk [some 5, none] 0 1 : Queue Nat).insert 7).snd.len
      = (Queue.mk [some 5, none] 0 1 : Queue Nat).len + 1 ∧
    ((Queue.mk [some 5, none] 0 1 : Queue Nat).insert 7).snd.start
      = (Queue.mk [some 5, none] 0 1 : Queue Nat).start ∧
    ((Queue.mk [some 5, none] 0 1 : Queue Nat).insert 7).snd.capacity
      = (Queue.mk [some 5, none] 0 1 : Queue Nat).capacity ∧
    (Queue.mk [some 5, none] 0 1 : Queue Nat).values.getD
      (((Queue.mk [some 5, none] 0 1 : Queue Nat).start
          + (Queue.mk [some 5, none] 0 1 : Queue Nat).len)
        % (Queue.mk [some 5, none] 0 1 : Queue Nat).capacity) none = none ∧
    ((Queue.mk [some 5, none] 0 1 : Queue Nat).insert 7).snd.values.getD
      (((Queue.mk [some 5, none] 0 1 : Queue Nat).start
          + (Queue.mk [some 5, none] 0 1 : Queue Nat).len)
        % (Queue.mk [some 5, none] 0 1 : Queue Nat).capacity) none = some 7 ∧
    (∀ j, j < (Queue.mk [some 5, none] 0 1 : Queue Nat).capacity →
      j ≠ ((Queue.mk [some 5, none] 0 1 : Queue Nat).start
          + (Queue.mk [some 5, none] 0 1 : Queue Nat).len)
        % (Queue.mk [some 5, none] 0 1 : Queue Nat).capacity →
      ((Queue.mk [some 5, none] 0 1 : Queue Nat).insert 7).snd.values.getD j none
        = (Queue.mk [some 5, none] 0 1 : Queue Nat).values.getD j none)) :=
  ⟨by decide, by decide,
    claim_C6_insert_success (Queue.mk [some 5, none] 0 1) 7 (by decide) (by decide)⟩

/-- C7: on a non-empty well-formed queue, `extract` returns `some` of the
value at slot `start` (that slot is occupied), marks that slot vacant,
advances `start` to `(start + 1) % C`, decrements `len` by exactly 1, and
leaves the capacity and every other slot unchanged. -/
theorem claim_C7_extract_success {T : Type} (q : Queue T) (h : q.Wf)
    (hpos : 0 < q.len) :
    q.extract.fst = q.values.getD q.start none ∧
    (q.values.getD q.start none).isSome = true ∧
    q.extract.snd.start = (q.start + 1) % q.capacity ∧
    q.extract.snd.len = q.len - 1 ∧
    q.extract.snd.capacity = q.capacity ∧
    q.extract.snd.values.getD q.start none = none ∧
    (∀ j, j < q.capacity → j ≠ q.start →
      q.extract.snd.values.getD j none = q.values.getD j none) := by
  obtain ⟨hlen, hs1, hs0, hcont⟩ := h
  rw [Queue.capacity_eq q]
  have hC : 0 < q.values.length := by omega
  have hst : q.start < q.values.length := hs1 hC
  refine ⟨Queue.extract_fst_pos hpos, ?_, Queue.extract_snd_start hpos,
    Queue.extract_snd_len hpos, by rw [Queue.capacity_extract, Queue.capacity_eq q],
    ?_, ?_⟩
  · exact (hcont q.start hst).mpr ⟨0, hpos, by rw [Nat.add_zero, Nat.mod_eq_of_lt hst]⟩
  · rw [Queue.extract_snd_values hpos]
    exact Queue.getD_set_self _ _ _ hst
  · intro j hj hne
    rw [Queue.extract_snd_values hpos]
    exact Queue.getD_set_ne _ none (Ne.symm hne)

/-- C7 witness: concrete instance at a capacity-2 queue holding two values. -/
theorem claim_C7_extract_success_witness :
    (Queue.mk [some 3, some 4] 0 2 : Queue Nat).Wf ∧
    0 < (Queue.mk [some 3, some 4] 0 2 : Queue Nat).len ∧
    ((Queue.mk [some 3, some 4] 0 2 : Queue Nat).extract.fst
      = (Queue.mk [some 3, some 4] 0 2 : Queue Nat).values.getD
          (Queue.mk [some 3, some 4] 0 2 : Queue Nat).start none ∧
    ((Queue.mk [some 3, some 4] 0 2 : Queue Nat).values.getD
        (Queue.mk [some 3, some 4] 0 2 : Queue Nat).start none).isSome = true ∧
    (Queue.mk [some 3, some 4] 0 2 : Queue Nat).extract.snd.start
      = ((Queue.mk [some 3, some 4] 0 2 : Queue Nat).start + 1)
        % (Queue.mk [some 3, some 4] 0 2 : Queue Nat).capacity ∧
    (Queue.mk [some 3, some 4] 0 2 : Queue Nat).extract.snd.len
      = (Queue.mk [some 3, some 4] 0 2 : Queue Nat).len - 1 ∧
    (Queue.mk [some 3, some 4] 0 2 : Queue Nat).extract.snd.capacity
      = (Queue.mk [some 3, some 4] 0 2 : Queue Nat).capacity ∧
    (Queue.mk [some 3, some 4] 0 2 : Queue Nat).extract.snd.values.getD
      (Queue.mk [some 3, some 4] 0 2 : Queue Nat).start none = none ∧
    (∀ j, j < (Queue.mk [some 3, some 4] 0 2 : Queue Nat).capacity →
      j ≠ (Queue.mk [some 3, some 4] 0 2 : Queue Nat).start →
      (Queue.mk [some 3, some 4] 0 2 : Queue Nat).extract.snd.values.getD j none
        = (Queue.mk [some 3, some 4] 0 2 : Queue Nat).values.getD j none)) :=
  ⟨by decide, by decide,
    claim_C7_extract_success (Queue.mk [some 3, some 4] 0 2) (by decide) (by decide)⟩

/-- C8: a capacity of `C = 0` is a valid configuration: on a well-formed
zero-capacity queue every `insert` returns `Overflow` with the state
unchanged (via the early guard, before any modulo-by-capacity expression),
`extract` always returns `none` with the state unchanged (via the `len == 0`
early return, before any modulo), the queue is permanently empty, and no
operation reaches the division by zero. -/
theorem claim_C8_zero_capacity {T : Type} (q : Queue T) (h : q.Wf)
    (hc : q.capacity = 0) :
    (∀ v : T, q.insert v = (Except.error QueueError.Overflow, q)) ∧
    q.extract = (none, q) ∧
    q.len = 0 ∧
    q.is_empty = true ∧
    q.start = 0 := by
  rw [Queue.capacity_eq] at hc
  have hlen : q.len = 0 := by
    have := h.1
    omega
  exact ⟨fun v => Queue.insert_full v (by omega), Queue.extract_zero hlen, hlen,
    by simp [Queue.is_empty, hlen], h.2.2.1 hc⟩

/-- C8 witness: concrete instance at the freshly constructed zero-capacity
queue. -/
theorem claim_C8_zero_capacity_witness :
    (Queue.default Nat 0).Wf ∧
    (Queue.default Nat 0).capacity = 0 ∧
    ((∀ v : Nat, (Queue.default Nat 0).insert v
        = (Except.error QueueError.Overflow, Queue.default Nat 0)) ∧
    (Queue.default Nat 0).extract = (none, Queue.default Nat 0) ∧
    (Queue.default Nat 0).len = 0 ∧
    (Queue.default Nat 0).is_empty = true ∧
    (Queue.default Nat 0).start = 0) :=
  ⟨by decide, by decide, claim_C8_zero_capacity (Queue.default Nat 0) (by decide) (by decide)⟩

/-- C5: `extract` on an empty queue returns `none` — the empty signal, not an
error (`extract`'s result type has no error case at all) — and leaves the
entire state (`start`, `len`, all slots) unchanged. -/
theorem claim_C5_empty_extract {T : Type} (q : Queue T) (h : q.len = 0) :
    q.extract = (none, q) :=
  Queue.extract_zero h

/-- C5 witness: concrete instance at an empty capacity-2 queue. -/
theorem claim_C5_empty_extract_witness :
    (Queue.default Nat 2).len = 0 ∧
    (Queue.default Nat 2).extract = (none, Queue.default Nat 2) :=
  ⟨by decide, claim_C5_empty_extract (Queue.default Nat 2) (by decide)⟩

/-- C9: the two source copies of the queue (src/src/lib.rs and
src/stackqueue.rs) are observably equivalent: on every state their `insert`,
`extract`, `capacity`, `len` and `is_empty` return equal results and equal
successor states (in particular on every state satisfying the occupancy
invariant, as the claim requires). -/
theorem claim_C9_copies_equivalent {T : Type} (q : Queue T) (v : T) :
    StackQueue.insert q v = q.insert v ∧
    StackQueue.extract q = q.extract ∧
    StackQueue.capacity q = q.capacity ∧
    StackQueue.len q = q.len ∧
    StackQueue.is_empty q = q.is_empty :=
  ⟨rfl, rfl, rfl, rfl, rfl⟩

/-- C10: every queue reachable from a freshly constructed one by insert and
extract calls keeps `capacity = C` and a valid `start`: `start < C` whenever
`C > 0`, and `start = 0` when `C = 0` — also when the queue is empty. -/
theorem claim_C10_start_in_range {T : Type} (C : Nat) (ops : List (Op T)) :
    (runOps (Queue.default T C) ops).snd.capacity = C ∧
    (0 < C → (runOps (Queue.default T C) ops).snd.start < C) ∧
    (C = 0 → (runOps (Queue.default T C) ops).snd.start = 0) := by
  have hsim := runOps_sim ops (Queue.default T C) [] (Queue.default_models C)
  have hcap : (runOps (Queue.default T C) ops).snd.capacity = C := by
    rw [runOps_capacity]
    simp [Queue.capacity, Queue.default]
  have hwf := hsim.2.1
  have hlv : (runOps (Queue.default T C) ops).snd.values.length = C := by
    rw [← Queue.capacity_eq]
    exact hcap
  refine ⟨hcap, ?_, ?_⟩
  · intro h0
    have := hwf.2.1 (by rw [hlv]; exact h0)
    rw [hlv] at this
    exact this
  · intro h0
    exact hwf.2.2.1 (by rw [hlv]; exact h0)

end SmallQueue
